import Mathlib

/-!
# Verification of the flashcard app's sync and state-management layer

Shallow embedding of `src/app.py` (and the relevant pieces of
`src/ui_components.py`).  Python dicts are modelled as association lists in
insertion order (the iteration order Python guarantees); Python lists as
`List`; the persisted JSON files as fields of an explicit state record;
exceptions as `Except`.  The remote fetch outcome (`notion.databases.query`
plus the row mapping) is a parameter of the session-initialization model,
since its success or failure is decided by the external service.
-/

/-- A value of the words mapping: `{"meaning": ..., "memo": ...}`. -/
structure Entry where
  meaning : String
  memo : String
deriving DecidableEq, Repr

/-- A row fetched from the remote source: `{word, meaning, memo}`
(`fetch_notion_rows`, src/app.py:70-93). -/
structure Row where
  word : String
  meaning : String
  memo : String
deriving DecidableEq, Repr

/-- The words mapping, as a Python dict in insertion order. -/
abbrev Words : Type := List (String × Entry)

/-- `d[k] = v` on a Python dict: overwrite the value in place if the key is
present (position preserved), append otherwise. -/
def dictInsert (k : String) (v : Entry) : Words → Words
  | [] => [(k, v)]
  | (k', v') :: rest =>
      if k' = k then (k', v) :: rest else (k', v') :: dictInsert k v rest

/-- `d.pop(k)`: drop the binding of `k` (every binding for that key). -/
def dictRemove (k : String) (m : Words) : Words :=
  m.filter (fun p => p.1 ≠ k)

/-- `d[k]` lookup: first binding wins (keys are unique for real dicts). -/
def dictGet (k : String) : Words → Option Entry
  | [] => none
  | (k', v') :: rest => if k' = k then some v' else dictGet k rest

/-- `k in d`. -/
def dictHasKey (k : String) (m : Words) : Bool :=
  (dictGet k m).isSome

/-- `d |= r` (src/app.py:109): fold the right dict into the left, overwriting
on key collision, appending new keys in iteration order. -/
def dictMerge (m r : Words) : Words :=
  r.foldl (fun acc p => dictInsert p.1 p.2 acc) m

/-- The loop of `sync_from_notion` (src/app.py:97-99): build a fresh dict
from the fetched rows. -/
def rowsToDict (rows : List Row) : Words :=
  rows.foldl (fun acc r => dictInsert r.word ⟨r.meaning, r.memo⟩ acc) []

/-- The mutable state: the in-memory session collections
(`st.session_state["words"]`, `st.session_state["learned"]`) and the parsed
contents of the persisted stores (`words.json`, `learned_words.json`). -/
structure AppState where
  words : Words
  learned : List String
  wordsStore : Words
  learnedStore : List String
deriving DecidableEq

/-- Surface of `notion_client.APIResponseError` as used at src/app.py:74-78. -/
structure FetchErr where
  status : Nat
  code : String
  msg : String
deriving DecidableEq

/-- `sync_from_notion` (src/app.py:96-101): builds a fresh dict from the
fetched rows, persists it to the words store (`save_words(words)`), and
returns it. -/
def sync_from_notion (rows : List Row) (st : AppState) : Words × AppState :=
  let ws := rowsToDict rows
  (ws, { st with wordsStore := ws })

/-- The session-start merge (src/app.py:109):
`st.session_state["words"] |= sync_from_notion()`. -/
def mergeRemote (rows : List Row) (st : AppState) : AppState :=
  let (remote, st') := sync_from_notion rows st
  { st' with words := dictMerge st'.words remote }

/-- Session initialization (src/app.py:105-109).  `ws`/`ls` are the parsed
contents of `words.json` / `learned_words.json` (`load_words`/`load_learned`
create them with the empty default when missing, so loading always yields
their current contents).  `fetch` is the outcome of the remote fetch: on
`APIResponseError` the script shows the error and `st.stop()`s, leaving the
loaded collections in `st.session_state` and the stores untouched. -/
def sessionInit (ws : Words) (ls : List String)
    (fetch : Except FetchErr (List Row)) : AppState × Option FetchErr :=
  let st0 : AppState := ⟨ws, ls, ws, ls⟩
  match fetch with
  | Except.error e => (st0, some e)
  | Except.ok rows => (mergeRemote rows st0, none)

/-- The add handler (src/app.py:119-123):
`if add_clicked and new_word and new_mean:` — Python truthiness of a string
is non-emptiness — insert/overwrite and `save_words`. -/
def addHandler (word mean memo : String) (clicked : Bool) (st : AppState) :
    AppState :=
  if clicked = true ∧ word ≠ "" ∧ mean ≠ "" then
    let w := dictInsert word ⟨mean, memo⟩ st.words
    { st with words := w, wordsStore := w }
  else st

/-- The delete handler (src/app.py:138-144): guarded by membership, pops the
word, filters it out of `learned`, persists both stores. -/
def deleteHandler (target : String) (clicked : Bool) (st : AppState) :
    AppState :=
  if clicked = true ∧ dictHasKey target st.words = true then
    let w := dictRemove target st.words
    let l := st.learned.filter (fun x => x ≠ target)
    { st with words := w, learned := l, wordsStore := w, learnedStore := l }
  else st

/-- The learning queue (src/app.py:155): `[w for w in words if w not in learned]`. -/
def learnedQueue (words : Words) (learned : List String) : List String :=
  (words.map Prod.fst).filter (fun w => ¬ w ∈ learned)

/-- One click of the 覚えた button (src/app.py:154-169): if the queue is
empty the script stops beforehand; otherwise `learned.append(queue[0])` and
`save_learned(learned)`. -/
def learnedBtn (st : AppState) : AppState :=
  match learnedQueue st.words st.learned with
  | [] => st
  | current :: _ =>
      let l := st.learned ++ [current]
      { st with learned := l, learnedStore := l }

/-- Python `list.remove(x)`: remove the first occurrence, `ValueError` if
absent. -/
def listRemoveFirst (x : String) : List String → Option (List String)
  | [] => none
  | y :: ys => if y = x then some ys else (listRemoveFirst x ys).map (y :: ·)

/-- One click of the 覚え直し button (src/app.py:183-187):
`learned.remove(target); save_learned(learned)`.  `target` is whatever the
selectbox provided; a `ValueError` from `list.remove` is modelled as
`Except.error`, in which case no state was mutated. -/
def relearnBtn (target : String) (st : AppState) : Except Unit AppState :=
  match listRemoveFirst target st.learned with
  | some l => Except.ok { st with learned := l, learnedStore := l }
  | none => Except.error ()

/-! ## The snapshot store (src/app.py:32-43)

The backup directory is modelled as the list of snapshot filenames it
contains (snapshot contents play no role in the claims); the primary store
file as an `Option` of its parsed value. -/

/-- A local timestamp, to second granularity (`datetime.datetime.now()`). -/
structure DateTime where
  year : Nat
  month : Nat
  day : Nat
  hour : Nat
  minute : Nat
  second : Nat
deriving DecidableEq, Repr

/-- Field ranges of a real calendar timestamp. -/
def DateTime.Valid (t : DateTime) : Prop :=
  1000 ≤ t.year ∧ t.year ≤ 9999 ∧ 1 ≤ t.month ∧ t.month ≤ 12 ∧
    1 ≤ t.day ∧ t.day ≤ 31 ∧ t.hour ≤ 23 ∧ t.minute ≤ 59 ∧ t.second ≤ 59

instance (t : DateTime) : Decidable t.Valid :=
  decidable_of_iff
    (1000 ≤ t.year ∧ t.year ≤ 9999 ∧ 1 ≤ t.month ∧ t.month ≤ 12 ∧
      1 ≤ t.day ∧ t.day ≤ 31 ∧ t.hour ≤ 23 ∧ t.minute ≤ 59 ∧ t.second ≤ 59)
    Iff.rfl

/-- Chronological order on timestamps, as a mixed-radix key. -/
def DateTime.key (t : DateTime) : Nat :=
  ((((t.year * 100 + t.month) * 100 + t.day) * 100 + t.hour) * 100
      + t.minute) * 100 + t.second

/-- The last decimal digit of `n`, as a character. -/
def digitChar (n : Nat) : Char := Char.ofNat (48 + n % 10)

/-- `n` rendered as exactly `k` decimal digits, zero-padded (the behaviour
of `%Y`, `%m`, `%d`, `%H`, `%M`, `%S` for in-range values). -/
def padNum : Nat → Nat → List Char
  | 0, _ => []
  | k + 1, n => padNum k (n / 10) ++ [digitChar n]

/-- `f"{now:%Y-%m-%d_%H%M%S}"` (src/app.py:40). -/
def formatTs (t : DateTime) : String :=
  ⟨padNum 4 t.year ++ '-' :: padNum 2 t.month ++ '-' :: padNum 2 t.day
      ++ '_' :: (padNum 2 t.hour ++ padNum 2 t.minute ++ padNum 2 t.second)⟩

/-- The snapshot filename the source produces (src/app.py:40):
`f"{path.stem}_{now:%Y-%m-%d_%H%M%S}.json"`. -/
def snapName (stem : String) (t : DateTime) : String :=
  stem ++ "_" ++ formatTs t ++ ".json"

/-- Modelled from the spec: the snapshot filename format the spec states,
`{store-name}_{YYYYMMDD_HHMMSS}.json` (compact date, no dashes), written
out for comparison with `snapName`. -/
def specFormatTs (t : DateTime) : String :=
  ⟨padNum 4 t.year ++ padNum 2 t.month ++ padNum 2 t.day
      ++ '_' :: (padNum 2 t.hour ++ padNum 2 t.minute ++ padNum 2 t.second)⟩

/-- Modelled from the spec: `{store-name}_{YYYYMMDD_HHMMSS}.json`. -/
def specSnapName (stem : String) (t : DateTime) : String :=
  stem ++ "_" ++ specFormatTs t ++ ".json"

/-- One store's slice of the filesystem: the primary file (parsed value, or
`none` when it does not exist) and the backup directory's filenames. -/
structure FS (α : Type) where
  file : Option α
  dir : List String
deriving DecidableEq

/-- Creating a file in a directory: a fresh name is appended; copying onto
an existing name replaces its content and adds no entry. -/
def putFile (name : String) (dir : List String) : List String :=
  if name ∈ dir then dir else dir ++ [name]

/-- The order Python's `sorted` uses through `<` on paths sharing the same
parent directory: the non-strict string order. -/
def strLe (a b : String) : Prop := ¬ b < a

instance : DecidableRel strLe := fun a b =>
  inferInstanceAs (Decidable (¬ b < a))

/-- `listPre p l`: does list `l` start with `p`? -/
def listPre : List Char → List Char → Bool
  | [], _ => true
  | _ :: _, [] => false
  | a :: as, b :: bs => a == b && listPre as bs

/-- Does a filename match the glob `f"{stem}_*.json"` (src/app.py:33)? -/
def matchGlob (stem f : String) : Bool :=
  listPre (stem ++ "_").data f.data
    && listPre ".json".data.reverse f.data.reverse
    && decide ((stem ++ "_").data.length + 5 ≤ f.data.length)

/-- `_trim_backups` (src/app.py:32-35): glob this store's snapshots, sort
them, unlink all but the last `keep`. -/
def trim_backups (stem : String) (keep : Nat) (dir : List String) :
    List String :=
  let snaps := List.insertionSort strLe (dir.filter (fun f => matchGlob stem f))
  let doomed := snaps.take (snaps.length - keep)
  dir.filter (fun f => !(decide (f ∈ doomed)))

/-- `_json_dump` (src/app.py:38-43): when the primary file exists, copy it
to a timestamped snapshot (`copyOk = false` models `shutil.copy2` raising,
which aborts the whole save with nothing mutated), trim the store's
snapshots to 5, then overwrite the primary file. -/
def json_dump {α : Type} (stem : String) (t : DateTime) (copyOk : Bool)
    (d : α) (fs : FS α) : Except Unit (FS α) :=
  match fs.file with
  | some _ =>
      if copyOk then
        Except.ok { file := some d,
                    dir := trim_backups stem 5 (putFile (snapName stem t) fs.dir) }
      else Except.error ()
  | none => Except.ok { file := some d, dir := fs.dir }

/-- A sequence of successful saves to one store, each stamped with its own
timestamp (the app calls `_json_dump` once per mutating operation). -/
def runSaves {α : Type} (stem : String) :
    List (DateTime × α) → FS α → FS α
  | [], fs => fs
  | (t, d) :: rest, fs =>
      match json_dump stem t true d fs with
      | Except.ok fs' => runSaves stem rest fs'
      | Except.error _ => fs

/-- A concrete state used to instantiate the hypothesis-bearing theorems:
two words, one of them learned, both stores in step with memory. -/
def stD : AppState :=
  ⟨[("cat", ⟨"feline", ""⟩), ("dog", ⟨"d", ""⟩)], ["cat"],
   [("cat", ⟨"feline", ""⟩), ("dog", ⟨"d", ""⟩)], ["cat"]⟩

/-- Concrete inputs used to instantiate the hypothesis-bearing theorems. -/
def saves6 : List (DateTime × Nat) :=
  [(⟨2024, 1, 1, 0, 0, 1⟩, 1), (⟨2024, 1, 1, 0, 0, 2⟩, 2),
   (⟨2024, 1, 1, 0, 0, 3⟩, 3), (⟨2024, 1, 1, 0, 0, 4⟩, 4),
   (⟨2024, 1, 1, 0, 0, 5⟩, 5), (⟨2024, 1, 2, 10, 30, 0⟩, 6)]

/-! ## Dictionary lemmas -/

theorem dictGet_dictInsert (k k' : String) (v : Entry) (m : Words) :
    dictGet k (dictInsert k' v m) = if k' = k then some v else dictGet k m := by
  induction m with
  | nil => simp [dictInsert, dictGet]
  | cons p rest ih =>
      obtain ⟨k0, v0⟩ := p
      by_cases h0 : k0 = k'
      · subst h0
        by_cases h1 : k0 = k <;> simp [dictInsert, dictGet, h1]
      · by_cases h1 : k0 = k
        · subst h1
          have hne : k' ≠ k0 := fun h => h0 h.symm
          simp [dictInsert, dictGet, h0, hne]
        · simp [dictInsert, dictGet, h0, h1, ih]

theorem dictInsert_absorb (k : String) (v : Entry) (m : Words)
    (h : dictGet k m = some v) : dictInsert k v m = m := by
  induction m with
  | nil => simp [dictGet] at h
  | cons p rest ih =>
      obtain ⟨k0, v0⟩ := p
      by_cases h0 : k0 = k
      · subst h0
        simp [dictGet] at h
        simp [dictInsert, h]
      · simp [dictGet, h0] at h
        simp [dictInsert, h0, ih h]

theorem dictGet_dictMerge_not_mem (k : String) :
    ∀ (r m : Words), (∀ p ∈ r, p.1 ≠ k) →
      dictGet k (dictMerge m r) = dictGet k m := by
  intro r
  induction r with
  | nil => intro m _; rfl
  | cons q r' ih =>
      intro m h
      have hq : q.1 ≠ k := h q (List.mem_cons_self q r')
      have h' : ∀ p ∈ r', p.1 ≠ k := fun p hp => h p (List.mem_cons_of_mem q hp)
      show dictGet k (dictMerge (dictInsert q.1 q.2 m) r') = dictGet k m
      rw [ih _ h', dictGet_dictInsert, if_neg hq]

theorem keys_dictInsert (k : String) (v : Entry) (m : Words) :
    (dictInsert k v m).map Prod.fst =
      if (dictGet k m).isSome then m.map Prod.fst
      else m.map Prod.fst ++ [k] := by
  induction m with
  | nil => simp [dictInsert, dictGet]
  | cons p rest ih =>
      obtain ⟨k0, v0⟩ := p
      by_cases h0 : k0 = k
      · subst h0
        simp [dictInsert, dictGet]
      · simp [dictInsert, dictGet, h0, ih]
        by_cases h1 : (dictGet k rest).isSome <;> simp [h1]

theorem dictGet_isSome_of_mem_keys (k : String) (m : Words)
    (h : k ∈ m.map Prod.fst) : (dictGet k m).isSome = true := by
  induction m with
  | nil => simp at h
  | cons q rest ih =>
      obtain ⟨kq, vq⟩ := q
      rw [List.map_cons] at h
      rcases List.mem_cons.mp h with h | h
      · simp [dictGet, h]
      · by_cases hq : kq = k
        · simp [dictGet, hq]
        · simp [dictGet, hq]
          exact ih h

theorem nodupKeys_dictInsert (k : String) (v : Entry) (m : Words)
    (h : (m.map Prod.fst).Nodup) :
    ((dictInsert k v m).map Prod.fst).Nodup := by
  rw [keys_dictInsert]
  by_cases h1 : (dictGet k m).isSome
  · simpa [h1] using h
  · have hk : k ∉ m.map Prod.fst := fun hmem =>
      h1 (dictGet_isSome_of_mem_keys k m hmem)
    simp [h1, List.nodup_append, hk, h]

theorem nodupKeys_foldl (rows : List Row) :
    ∀ m : Words, (m.map Prod.fst).Nodup →
      ((rows.foldl (fun acc r => dictInsert r.word ⟨r.meaning, r.memo⟩ acc) m).map
          Prod.fst).Nodup := by
  induction rows with
  | nil => intro m h; exact h
  | cons r rows' ih =>
      intro m h
      exact ih _ (nodupKeys_dictInsert _ _ _ h)

theorem nodupKeys_rowsToDict (rows : List Row) :
    ((rowsToDict rows).map Prod.fst).Nodup :=
  nodupKeys_foldl rows [] (by simp)

theorem mem_dictInsert (p : String × Entry) (k : String) (v : Entry)
    (m : Words) (h : p ∈ dictInsert k v m) : p ∈ m ∨ p.1 = k := by
  induction m with
  | nil =>
      simp [dictInsert] at h
      exact Or.inr (by rw [h])
  | cons q rest ih =>
      obtain ⟨k0, v0⟩ := q
      by_cases h0 : k0 = k
      · subst h0
        simp [dictInsert] at h
        rcases h with h | h
        · exact Or.inr (by rw [h])
        · left; exact List.mem_cons_of_mem _ h
      · simp [dictInsert, h0] at h
        rcases h with h | h
        · left; simp [h]
        · rcases ih h with h1 | h1
          · left; exact List.mem_cons_of_mem _ h1
          · right; exact h1

theorem mem_foldl_dictInsert (rows : List Row) :
    ∀ (m : Words) (p : String × Entry),
      p ∈ rows.foldl (fun acc r => dictInsert r.word ⟨r.meaning, r.memo⟩ acc) m →
      p ∈ m ∨ p.1 ∈ rows.map Row.word := by
  induction rows with
  | nil => intro m p h; exact Or.inl h
  | cons r rows' ih =>
      intro m p h
      rcases ih _ p h with h1 | h1
      · rcases mem_dictInsert p r.word ⟨r.meaning, r.memo⟩ m h1 with h2 | h2
        · exact Or.inl h2
        · exact Or.inr (by simp [h2])
      · exact Or.inr (by simp [h1])

theorem mem_rowsToDict_word (rows : List Row) (p : String × Entry)
    (h : p ∈ rowsToDict rows) : p.1 ∈ rows.map Row.word := by
  rcases mem_foldl_dictInsert rows [] p h with h1 | h1
  · cases h1
  · exact h1

theorem dictGet_dictMerge_mem :
    ∀ (r m : Words), (r.map Prod.fst).Nodup →
      ∀ p ∈ r, dictGet p.1 (dictMerge m r) = some p.2 := by
  intro r
  induction r with
  | nil => intro m _ p hp; cases hp
  | cons q r' ih =>
      intro m hnd p hp
      rw [List.map_cons] at hnd
      have hnd' := List.nodup_cons.mp hnd
      rcases List.mem_cons.mp hp with h | h
      · subst h
        show dictGet p.1 (dictMerge (dictInsert p.1 p.2 m) r') = some p.2
        rw [dictGet_dictMerge_not_mem p.1 r' _
              (fun q' hq' heq =>
                hnd'.1 (heq ▸ List.mem_map_of_mem Prod.fst hq')),
            dictGet_dictInsert, if_pos rfl]
      · exact ih _ hnd'.2 p h

theorem dictMerge_absorb :
    ∀ (r m : Words), (∀ p ∈ r, dictGet p.1 m = some p.2) →
      dictMerge m r = m := by
  intro r
  induction r with
  | nil => intro m _; rfl
  | cons q r' ih =>
      intro m h
      show dictMerge (dictInsert q.1 q.2 m) r' = m
      rw [dictInsert_absorb _ _ _ (h q (List.mem_cons_self q r'))]
      exact ih m (fun p hp => h p (List.mem_cons_of_mem q hp))

theorem dictMerge_idem (m r : Words) (h : (r.map Prod.fst).Nodup) :
    dictMerge (dictMerge m r) r = dictMerge m r :=
  dictMerge_absorb r (dictMerge m r) (dictGet_dictMerge_mem r m h)

theorem dictGet_dictRemove (k w : String) (m : Words) (h : k ≠ w) :
    dictGet k (dictRemove w m) = dictGet k m := by
  induction m with
  | nil => rfl
  | cons p rest ih =>
      obtain ⟨k0, v0⟩ := p
      by_cases h0 : k0 = w
      · have hdrop : dictRemove w ((k0, v0) :: rest) = dictRemove w rest := by
          simp [dictRemove, List.filter_cons, h0]
        have hk0 : k0 ≠ k := fun hh => h (hh ▸ h0)
        rw [hdrop, ih, dictGet, if_neg hk0]
      · have hkeep : dictRemove w ((k0, v0) :: rest)
            = (k0, v0) :: dictRemove w rest := by
          simp [dictRemove, List.filter_cons, h0]
        rw [hkeep]
        show (if k0 = k then some v0 else dictGet k (dictRemove w rest))
          = (if k0 = k then some v0 else dictGet k rest)
        rw [ih]

/-! ## Filename-order lemmas

Python's `sorted` on the snapshot paths compares them as strings, i.e.
lexicographically on characters; these lemmas show that on the fixed-width
`%Y-%m-%d_%H%M%S` names this order agrees with chronological order. -/

theorem lex_append_left {α : Type} {r : α → α → Prop} :
    ∀ (p l1 l2 : List α), List.Lex r l1 l2 → List.Lex r (p ++ l1) (p ++ l2) := by
  intro p
  induction p with
  | nil => intro l1 l2 h; exact h
  | cons a p ih => intro l1 l2 h; exact List.Lex.cons (ih l1 l2 h)

theorem lex_append_right {α : Type} {r : α → α → Prop} :
    ∀ (l1 l2 s1 s2 : List α), l1.length = l2.length → List.Lex r l1 l2 →
      List.Lex r (l1 ++ s1) (l2 ++ s2) := by
  intro l1 l2 s1 s2 hlen h
  revert hlen
  induction h with
  | nil => intro hlen; simp at hlen
  | cons h ih => intro hlen; exact List.Lex.cons (ih (by simpa using hlen))
  | rel h => intro hlen; exact List.Lex.rel h

theorem charOfDigit_lt (x y : Nat) (hx : x < 10) (hy : y < 10) (h : x < y) :
    Char.ofNat (48 + x) < Char.ofNat (48 + y) := by
  interval_cases x <;> interval_cases y <;> first | omega | decide

theorem digitChar_lt (a b : Nat) (h : a % 10 < b % 10) :
    digitChar a < digitChar b :=
  charOfDigit_lt (a % 10) (b % 10) (Nat.mod_lt a (by decide))
    (Nat.mod_lt b (by decide)) h

theorem padNum_length : ∀ (k n : Nat), (padNum k n).length = k := by
  intro k
  induction k with
  | zero => intro n; rfl
  | succ k ih => intro n; simp [padNum, ih]

theorem padNum_lt : ∀ (k n m : Nat), n < 10 ^ k → m < 10 ^ k → n < m →
    List.Lex (fun a b : Char => a < b) (padNum k n) (padNum k m) := by
  intro k
  induction k with
  | zero =>
      intro n m hn hm h
      simp [pow_zero] at hn hm
      omega
  | succ k ih =>
      intro n m hn hm h
      have hn10 : n / 10 < 10 ^ k := by
        rw [Nat.div_lt_iff_lt_mul (by norm_num)]
        calc n < 10 ^ (k + 1) := hn
          _ = 10 ^ k * 10 := by ring
      have hm10 : m / 10 < 10 ^ k := by
        rw [Nat.div_lt_iff_lt_mul (by norm_num)]
        calc m < 10 ^ (k + 1) := hm
          _ = 10 ^ k * 10 := by ring
      show List.Lex _ (padNum k (n / 10) ++ [digitChar n])
        (padNum k (m / 10) ++ [digitChar m])
      rcases Nat.lt_trichotomy (n / 10) (m / 10) with hd | hd | hd
      · exact lex_append_right _ _ _ _
          (by rw [padNum_length, padNum_length]) (ih _ _ hn10 hm10 hd)
      · have hmod : n % 10 < m % 10 := by omega
        rw [hd]
        exact lex_append_left _ _ _ (List.Lex.rel (digitChar_lt n m hmod))
      · omega

theorem formatTs_toList (t : DateTime) :
    (formatTs t).toList
      = padNum 4 t.year ++ ('-' :: (padNum 2 t.month ++ ('-' :: (padNum 2 t.day
          ++ ('_' :: (padNum 2 t.hour
              ++ (padNum 2 t.minute ++ padNum 2 t.second))))))) := by
  show padNum 4 t.year ++ '-' :: padNum 2 t.month ++ '-' :: padNum 2 t.day
      ++ '_' :: (padNum 2 t.hour ++ padNum 2 t.minute ++ padNum 2 t.second) = _
  simp [List.append_assoc]

theorem formatTs_length (t : DateTime) : (formatTs t).toList.length = 17 := by
  rw [formatTs_toList]
  simp [padNum_length]

theorem formatTs_lex {t1 t2 : DateTime} (h1 : t1.Valid) (h2 : t2.Valid)
    (h : t1.key < t2.key) :
    List.Lex (fun a b : Char => a < b) (formatTs t1).toList
      (formatTs t2).toList := by
  obtain ⟨hy1a, hy1b, hmo1a, hmo1b, hd1a, hd1b, hh1, hmi1, hs1⟩ := h1
  obtain ⟨hy2a, hy2b, hmo2a, hmo2b, hd2a, hd2b, hh2, hmi2, hs2⟩ := h2
  have hkey := h
  unfold DateTime.key at hkey
  rw [formatTs_toList, formatTs_toList]
  rcases Nat.lt_trichotomy t1.year t2.year with hy | hy | hy
  · exact lex_append_right _ _ _ _ (by rw [padNum_length, padNum_length])
      (padNum_lt 4 _ _ (by norm_num; omega) (by norm_num; omega) hy)
  · rw [hy]
    apply lex_append_left
    apply List.Lex.cons
    rcases Nat.lt_trichotomy t1.month t2.month with hmo | hmo | hmo
    · exact lex_append_right _ _ _ _ (by rw [padNum_length, padNum_length])
        (padNum_lt 2 _ _ (by norm_num; omega) (by norm_num; omega) hmo)
    · rw [hmo]
      apply lex_append_left
      apply List.Lex.cons
      rcases Nat.lt_trichotomy t1.day t2.day with hd | hd | hd
      · exact lex_append_right _ _ _ _ (by rw [padNum_length, padNum_length])
          (padNum_lt 2 _ _ (by norm_num; omega) (by norm_num; omega) hd)
      · rw [hd]
        apply lex_append_left
        apply List.Lex.cons
        rcases Nat.lt_trichotomy t1.hour t2.hour with hh | hh | hh
        · exact lex_append_right _ _ _ _ (by rw [padNum_length, padNum_length])
            (padNum_lt 2 _ _ (by norm_num; omega) (by norm_num; omega) hh)
        · rw [hh]
          apply lex_append_left
          rcases Nat.lt_trichotomy t1.minute t2.minute with hmi | hmi | hmi
          · exact lex_append_right _ _ _ _
              (by rw [padNum_length, padNum_length])
              (padNum_lt 2 _ _ (by norm_num; omega) (by norm_num; omega) hmi)
          · rw [hmi]
            apply lex_append_left
            have hs : t1.second < t2.second := by omega
            exact padNum_lt 2 _ _ (by norm_num; omega) (by norm_num; omega) hs
          · omega
        · omega
      · omega
    · omega
  · omega

theorem snapName_toList (stem : String) (t : DateTime) :
    (snapName stem t).toList
      = (stem.data ++ ['_']) ++ ((formatTs t).toList ++ ".json".data) := by
  show (stem ++ "_" ++ formatTs t ++ ".json").data = _
  simp [String.data_append, List.append_assoc]

theorem snapName_lt (stem : String) {t1 t2 : DateTime} (h1 : t1.Valid)
    (h2 : t2.Valid) (h : t1.key < t2.key) :
    snapName stem t1 < snapName stem t2 := by
  rw [String.lt_iff_toList_lt]
  show List.Lex (fun a b : Char => a < b) (snapName stem t1).toList
    (snapName stem t2).toList
  rw [snapName_toList, snapName_toList]
  apply lex_append_left
  exact lex_append_right _ _ _ _ (by rw [formatTs_length, formatTs_length])
    (formatTs_lex h1 h2 h)

theorem listPre_append (l r : List Char) : listPre l (l ++ r) = true := by
  induction l with
  | nil => rfl
  | cons a as ih => simp [listPre, ih]

theorem matchGlob_snapName (stem : String) (t : DateTime) :
    matchGlob stem (snapName stem t) = true := by
  have hdata : (snapName stem t).data
      = (stem ++ "_").data ++ ((formatTs t).toList ++ ".json".data) := by
    rw [String.data_append]
    exact snapName_toList stem t
  simp only [matchGlob, Bool.and_eq_true, decide_eq_true_eq]
  refine ⟨⟨?_, ?_⟩, ?_⟩
  · rw [hdata]
    exact listPre_append _ _
  · rw [hdata]
    simp only [List.reverse_append]
    rw [List.append_assoc]
    exact listPre_append _ _
  · rw [hdata]
    simp only [List.length_append, formatTs_length]
    omega

/-! ## Trim and retention lemmas -/

theorem putFile_fresh (name : String) (dir : List String)
    (h : ¬ name ∈ dir) : putFile name dir = dir ++ [name] := by
  simp [putFile, h]

theorem filter_not_mem_take (l : List String) (k : Nat) (h : l.Nodup) :
    l.filter (fun x => !(decide (x ∈ l.take k))) = l.drop k := by
  have h2 : l.filter (fun x => !(decide (x ∈ l.take k)))
      = (l.take k ++ l.drop k).filter (fun x => !(decide (x ∈ l.take k))) := by
    rw [List.take_append_drop]
  rw [h2, List.filter_append]
  have hdisj : List.Disjoint (l.take k) (l.drop k) := by
    apply List.disjoint_of_nodup_append
    rw [List.take_append_drop]
    exact h
  have hnil : (l.take k).filter (fun x => !(decide (x ∈ l.take k))) = [] := by
    rw [List.filter_eq_nil_iff]
    intro a ha
    simp [ha]
  have hall : (l.drop k).filter (fun x => !(decide (x ∈ l.take k)))
      = l.drop k := by
    rw [List.filter_eq_self]
    intro a ha
    simp only [Bool.not_eq_true', decide_eq_false_iff_not]
    exact fun hmem => hdisj hmem ha
  rw [hnil, hall, List.nil_append]

theorem trim_of_sorted (stem : String) (keep : Nat) (dir : List String)
    (hmatch : ∀ f ∈ dir, matchGlob stem f = true)
    (hsorted : dir.Pairwise (fun a b => a < b)) :
    trim_backups stem keep dir = dir.drop (dir.length - keep) := by
  have hfil : dir.filter (fun f => matchGlob stem f) = dir :=
    List.filter_eq_self.mpr hmatch
  have hsorted2 : List.Sorted strLe dir :=
    hsorted.imp (fun h => lt_asymm h)
  have hnd : dir.Nodup := hsorted.imp (fun h => ne_of_lt h)
  show dir.filter (fun f =>
      !(decide (f ∈ (List.insertionSort strLe
          (dir.filter (fun g => matchGlob stem g))).take
        ((List.insertionSort strLe
          (dir.filter (fun g => matchGlob stem g))).length - keep)))) = _
  rw [hfil, List.Sorted.insertionSort_eq hsorted2]
  exact filter_not_mem_take dir (dir.length - keep) hnd

theorem runSaves_dir {α : Type} (stem : String) :
    ∀ (saves : List (DateTime × α)) (fs : FS α),
      fs.file.isSome = true →
      (∀ p ∈ saves, p.1.Valid) →
      saves.Pairwise (fun p q => p.1.key < q.1.key) →
      (∀ f ∈ fs.dir, matchGlob stem f = true) →
      fs.dir.Pairwise (fun a b => a < b) →
      (∀ f ∈ fs.dir, ∀ p ∈ saves, f < snapName stem p.1) →
      fs.dir.length ≤ 5 →
      (runSaves stem saves fs).dir
        = (fs.dir ++ saves.map (fun p => snapName stem p.1)).drop
            (fs.dir.length + saves.length - 5) := by
  intro saves
  induction saves with
  | nil =>
      intro fs hfile hval hpair hmatch hsorted hfuture hlen
      simp only [runSaves, List.map_nil, List.append_nil, List.length_nil,
        Nat.add_zero]
      rw [Nat.sub_eq_zero_of_le (by omega), List.drop_zero]
  | cons pq rest ih =>
      obtain ⟨t, d⟩ := pq
      intro fs hfile hval hpair hmatch hsorted hfuture hlen
      obtain ⟨c, hc⟩ := Option.isSome_iff_exists.mp hfile
      have hvt : t.Valid := hval _ (List.mem_cons_self _ _)
      have hfresh : ¬ snapName stem t ∈ fs.dir := fun hmem =>
        absurd (hfuture (snapName stem t) hmem (t, d)
          (List.mem_cons_self _ _)) (lt_irrefl _)
      have hput : putFile (snapName stem t) fs.dir
          = fs.dir ++ [snapName stem t] := putFile_fresh _ _ hfresh
      have hsorted1 : (fs.dir ++ [snapName stem t]).Pairwise
          (fun a b => a < b) := by
        rw [List.pairwise_append]
        refine ⟨hsorted, List.pairwise_singleton _ _, ?_⟩
        intro a ha b hb
        rw [List.mem_singleton] at hb
        subst hb
        exact hfuture a ha (t, d) (List.mem_cons_self _ _)
      have hmatch1 : ∀ f ∈ fs.dir ++ [snapName stem t],
          matchGlob stem f = true := by
        intro f hf
        rcases List.mem_append.mp hf with hf | hf
        · exact hmatch f hf
        · rw [List.mem_singleton] at hf
          subst hf
          exact matchGlob_snapName stem t
      have hlen1 : (fs.dir ++ [snapName stem t]).length
          = fs.dir.length + 1 := by simp
      have htrim : trim_backups stem 5 (fs.dir ++ [snapName stem t])
          = (fs.dir ++ [snapName stem t]).drop (fs.dir.length + 1 - 5) := by
        rw [trim_of_sorted stem 5 _ hmatch1 hsorted1, hlen1]
      have hstep0 : json_dump stem t true d fs
          = Except.ok (FS.mk (some d)
              (trim_backups stem 5 (putFile (snapName stem t) fs.dir))) := by
        unfold json_dump
        rw [hc]
        rfl
      have hstep : json_dump stem t true d fs
          = Except.ok ⟨some d,
              (fs.dir ++ [snapName stem t]).drop (fs.dir.length + 1 - 5)⟩ := by
        rw [hstep0, hput, htrim]
      have hrun : runSaves stem ((t, d) :: rest) fs
          = runSaves stem rest ⟨some d,
              (fs.dir ++ [snapName stem t]).drop (fs.dir.length + 1 - 5)⟩ := by
        show (match json_dump stem t true d fs with
          | Except.ok fs' => runSaves stem rest fs'
          | Except.error _ => fs) = _
        rw [hstep]
      have hpair' := List.pairwise_cons.mp hpair
      have hsub : ((fs.dir ++ [snapName stem t]).drop
          (fs.dir.length + 1 - 5)) ⊆ fs.dir ++ [snapName stem t] :=
        List.drop_subset _ _
      have hlen2 : ((fs.dir ++ [snapName stem t]).drop
          (fs.dir.length + 1 - 5)).length
          = fs.dir.length + 1 - (fs.dir.length + 1 - 5) := by
        rw [List.length_drop, hlen1]
      have hih := ih ⟨some d,
          (fs.dir ++ [snapName stem t]).drop (fs.dir.length + 1 - 5)⟩
        rfl
        (fun p hp => hval p (List.mem_cons_of_mem _ hp))
        hpair'.2
        (fun f hf => hmatch1 f (hsub hf))
        (hsorted1.sublist (List.drop_sublist _ _))
        (fun f hf q hq => by
          rcases List.mem_append.mp (hsub hf) with hf1 | hf1
          · exact hfuture f hf1 q (List.mem_cons_of_mem _ hq)
          · rw [List.mem_singleton] at hf1
            subst hf1
            exact snapName_lt stem hvt (hval q (List.mem_cons_of_mem _ hq))
              (hpair'.1 q hq))
        (by rw [hlen2]; omega)
      rw [hrun, hih]
      have hle : fs.dir.length + 1 - 5
          ≤ (fs.dir ++ [snapName stem t]).length := by
        rw [hlen1]
        omega
      rw [← List.drop_append_of_le_length hle, List.drop_drop, hlen2,
        List.append_assoc, List.singleton_append]
      simp only [List.map_cons, List.length_cons]
      congr 1
      omega

/-! ## Claim theorems: snapshot store (C4, C5, C10) -/

/-- C4: with strictly increasing (second-distinct) valid timestamps,
after `N > 5` saves to a store exactly 5 snapshot files for that store
remain, and they are the 5 most recent — the older ones are deleted by the
lexicographic filename sort, which on the `%Y-%m-%d_%H%M%S` names agrees
with chronological order. -/
theorem backup_retention {α : Type} (stem : String) (d0 : α)
    (saves : List (DateTime × α))
    (hval : ∀ p ∈ saves, p.1.Valid)
    (hchrono : saves.Pairwise (fun p q => p.1.key < q.1.key))
    (hN : 5 < saves.length) :
    (runSaves stem saves { file := some d0, dir := [] } : FS α).dir
      = (saves.map (fun p => snapName stem p.1)).drop (saves.length - 5)
    ∧ ((runSaves stem saves
        { file := some d0, dir := [] } : FS α).dir).length = 5 := by
  have h := runSaves_dir stem saves { file := some d0, dir := [] }
    rfl hval hchrono (by intro f hf; cases hf) List.Pairwise.nil
    (by intro f hf; cases hf) (by simp)
  simp only [List.nil_append, List.length_nil, Nat.zero_add] at h
  refine ⟨h, ?_⟩
  rw [h, List.length_drop, List.length_map]
  omega

theorem backup_retention_witness :
    (∀ p ∈ saves6, p.1.Valid) ∧ 5 < saves6.length
    ∧ ((runSaves "words" saves6
          { file := some 0, dir := [] } : FS Nat).dir
        = (saves6.map (fun p => snapName "words" p.1)).drop
            (saves6.length - 5)
      ∧ ((runSaves "words" saves6
          { file := some 0, dir := [] } : FS Nat).dir).length = 5) :=
  ⟨by decide, by decide,
   backup_retention "words" 0 saves6 (by decide) (by decide) (by decide)⟩

/-- C5 counterexample: the snapshot filename the code produces uses the
dashed `%Y-%m-%d_%H%M%S` timestamp, not the spec's compact
`YYYYMMDD_HHMMSS`. -/
theorem snapshot_name_format :
    snapName "words" ⟨2026, 10, 12, 4, 56, 7⟩
      = "words_2026-10-12_045607.json"
    ∧ specSnapName "words" ⟨2026, 10, 12, 4, 56, 7⟩
      = "words_20261012_045607.json"
    ∧ snapName "words" ⟨2026, 10, 12, 4, 56, 7⟩
      ≠ specSnapName "words" ⟨2026, 10, 12, 4, 56, 7⟩ := by
  decide

/-- C5 (amended): every save over an existing store file first copies it to
a snapshot named `{store-name}_{YYYY-MM-DD_HHMMSS}.json` — local timestamp
at second granularity, date part dashed — and only then overwrites the
file; distinct seconds give distinct snapshot names. -/
theorem snapshot_before_overwrite {α : Type} (stem : String) (t : DateTime)
    (d : α) (fs : FS α) (c : α) (h : fs.file = some c) :
    json_dump stem t true d fs
      = Except.ok (FS.mk (some d)
          (trim_backups stem 5 (putFile (snapName stem t) fs.dir)))
    ∧ snapName stem t ∈ putFile (snapName stem t) fs.dir
    ∧ (∀ t2 : DateTime, t.Valid → t2.Valid → t.key < t2.key →
        snapName stem t ≠ snapName stem t2) := by
  refine ⟨?_, ?_, ?_⟩
  · unfold json_dump
    rw [h]
    rfl
  · unfold putFile
    by_cases hmem : snapName stem t ∈ fs.dir
    · simp [hmem]
    · simp [hmem]
  · intro t2 hv1 hv2 hk heq
    exact absurd (heq ▸ snapName_lt stem hv1 hv2 hk) (lt_irrefl _)

theorem snapshot_before_overwrite_witness :
    (FS.mk (some 0) [] : FS Nat).file = some 0
    ∧ (json_dump "words" ⟨2024, 1, 1, 0, 0, 1⟩ true 7 (FS.mk (some 0) [])
        = Except.ok (FS.mk (some 7) (trim_backups "words" 5
            (putFile (snapName "words" ⟨2024, 1, 1, 0, 0, 1⟩) [])))
      ∧ snapName "words" ⟨2024, 1, 1, 0, 0, 1⟩
          ∈ putFile (snapName "words" ⟨2024, 1, 1, 0, 0, 1⟩) []
      ∧ (∀ t2 : DateTime, (DateTime.mk 2024 1 1 0 0 1).Valid → t2.Valid →
          (DateTime.mk 2024 1 1 0 0 1).key < t2.key →
          snapName "words" ⟨2024, 1, 1, 0, 0, 1⟩ ≠ snapName "words" t2)) :=
  ⟨rfl, snapshot_before_overwrite "words" ⟨2024, 1, 1, 0, 0, 1⟩ 7
    (FS.mk (some 0) []) 0 rfl⟩

/-- C10: when the store file exists and the backup copy fails, `_json_dump`
raises before reaching the write — the save aborts with the primary store
file (and the backup directory) unchanged. -/
theorem backup_failure_aborts {α : Type} (stem : String) (t : DateTime)
    (d : α) (fs : FS α) (c : α) (h : fs.file = some c) :
    json_dump stem t false d fs = Except.error ()
    ∧ ∀ fs' : FS α, json_dump stem t false d fs ≠ Except.ok fs' := by
  have herr : json_dump stem t false d fs = Except.error () := by
    unfold json_dump
    rw [h]
    rfl
  refine ⟨herr, ?_⟩
  intro fs' hok
  rw [herr] at hok
  cases hok

theorem backup_failure_aborts_witness :
    (FS.mk (some 3) ["words_2024-01-01_000001.json"] : FS Nat).file = some 3
    ∧ (json_dump "words" ⟨2024, 1, 1, 0, 0, 2⟩ false 9
          (FS.mk (some 3) ["words_2024-01-01_000001.json"])
        = Except.error ()
      ∧ ∀ fs' : FS Nat,
          json_dump "words" ⟨2024, 1, 1, 0, 0, 2⟩ false 9
            (FS.mk (some 3) ["words_2024-01-01_000001.json"])
          ≠ Except.ok fs') :=
  ⟨rfl, backup_failure_aborts "words" ⟨2024, 1, 1, 0, 0, 2⟩ 9
    (FS.mk (some 3) ["words_2024-01-01_000001.json"]) 3 rfl⟩

/-! ## Claim theorems: sync (C1, C8, C9) -/

/-- C8: running the session-start merge twice with the same remote rows
produces the same state — in-memory words, learned list, and both persisted
stores — as running it once. -/
theorem sync_merge_idempotent (st : AppState) (rows : List Row) :
    mergeRemote rows (mergeRemote rows st) = mergeRemote rows st := by
  show AppState.mk
      (dictMerge (dictMerge st.words (rowsToDict rows)) (rowsToDict rows))
      st.learned (rowsToDict rows) st.learnedStore
    = AppState.mk (dictMerge st.words (rowsToDict rows)) st.learned
      (rowsToDict rows) st.learnedStore
  rw [dictMerge_idem st.words (rowsToDict rows) (nodupKeys_rowsToDict rows)]

/-- C9: when the remote fetch fails, session initialization halts with the
error surfaced, the persisted stores are untouched, and the in-memory
collections are exactly what was last persisted — the merge and its persist
never ran. -/
theorem fetch_failure_halts (ws : Words) (ls : List String) (e : FetchErr) :
    (sessionInit ws ls (Except.error e)).1.wordsStore = ws
    ∧ (sessionInit ws ls (Except.error e)).1.learnedStore = ls
    ∧ (sessionInit ws ls (Except.error e)).1.words = ws
    ∧ (sessionInit ws ls (Except.error e)).1.learned = ls
    ∧ (sessionInit ws ls (Except.error e)).2 = some e :=
  ⟨rfl, rfl, rfl, rfl, rfl⟩

/-- C1 counterexample: with local word "dog" and remote row "cat", the
in-memory repository after sync is the merge (dog retained), but the words
store was persisted with the remote-only mapping — it is not the merged
repository. -/
theorem sync_persists_remote_only :
    (sessionInit [("dog", ⟨"definition", ""⟩)] []
        (Except.ok [⟨"cat", "feline", ""⟩])).1.words
      = [("dog", ⟨"definition", ""⟩), ("cat", ⟨"feline", ""⟩)]
    ∧ (sessionInit [("dog", ⟨"definition", ""⟩)] []
        (Except.ok [⟨"cat", "feline", ""⟩])).1.wordsStore
      = [("cat", ⟨"feline", ""⟩)]
    ∧ (sessionInit [("dog", ⟨"definition", ""⟩)] []
          (Except.ok [⟨"cat", "feline", ""⟩])).1.wordsStore
        ≠ (sessionInit [("dog", ⟨"definition", ""⟩)] []
          (Except.ok [⟨"cat", "feline", ""⟩])).1.words := by
  decide

/-- C1 (amended): after the session-start sync, every word absent from the
remote rows keeps its local entry unchanged in the in-memory repository,
but the words store is persisted (once, inside `sync_from_notion`) with the
remote-only mapping, before the in-memory merge. -/
theorem sync_local_only_retained (ws : Words) (ls : List String)
    (rows : List Row) (w : String) (habs : ∀ r ∈ rows, r.word ≠ w) :
    dictGet w (sessionInit ws ls (Except.ok rows)).1.words = dictGet w ws
    ∧ (sessionInit ws ls (Except.ok rows)).1.wordsStore = rowsToDict rows := by
  constructor
  · show dictGet w (dictMerge ws (rowsToDict rows)) = dictGet w ws
    apply dictGet_dictMerge_not_mem
    intro p hp heq
    have hmem := mem_rowsToDict_word rows p hp
    rw [heq] at hmem
    obtain ⟨r, hr, hrw⟩ := List.mem_map.mp hmem
    exact habs r hr hrw
  · rfl

theorem sync_local_only_retained_witness :
    (∀ r ∈ [Row.mk "cat" "feline" ""], r.word ≠ "dog")
    ∧ (dictGet "dog" (sessionInit [("dog", ⟨"definition", ""⟩)] []
          (Except.ok [⟨"cat", "feline", ""⟩])).1.words
        = dictGet "dog" [("dog", ⟨"definition", ""⟩)]
      ∧ (sessionInit [("dog", ⟨"definition", ""⟩)] []
          (Except.ok [⟨"cat", "feline", ""⟩])).1.wordsStore
        = rowsToDict [⟨"cat", "feline", ""⟩]) :=
  ⟨by decide, sync_local_only_retained _ _ _ _ (by decide)⟩

/-! ## Claim theorems: add (C2) -/

/-- C2 counterexample: a whitespace-only word is truthy in Python, so
`add(" ", "meaning")` is accepted — both the in-memory repository and the
persisted store are mutated, and no validation failure occurs. -/
theorem add_whitespace_accepted :
    addHandler " " "meaning" "" true ⟨[], [], [], []⟩
      = ⟨[(" ", ⟨"meaning", ""⟩)], [], [(" ", ⟨"meaning", ""⟩)], []⟩
    ∧ addHandler " " "meaning" "" true ⟨[], [], [], []⟩ ≠ ⟨[], [], [], []⟩ := by
  decide

/-- C2 (amended): when `word` or `meaning` is the empty string the add is
silently skipped — no error value, no notification, nothing mutated or
persisted; any other input (whitespace-only included) is inserted or
overwritten and persisted synchronously. -/
theorem add_validation (word mean memo : String) (st : AppState) :
    ((word = "" ∨ mean = "") → addHandler word mean memo true st = st)
    ∧ (word ≠ "" → mean ≠ "" →
        addHandler word mean memo true st =
          { st with words := dictInsert word ⟨mean, memo⟩ st.words,
                    wordsStore := dictInsert word ⟨mean, memo⟩ st.words }) := by
  constructor
  · intro h
    rcases h with h | h <;> simp [addHandler, h]
  · intro h1 h2
    simp [addHandler, h1, h2]

theorem add_validation_witness :
    addHandler "" "m" "" true ⟨[], [], [], []⟩ = ⟨[], [], [], []⟩
    ∧ addHandler "cat" "feline" "" true ⟨[], [], [], []⟩
        = ⟨[("cat", ⟨"feline", ""⟩)], [], [("cat", ⟨"feline", ""⟩)], []⟩ :=
  ⟨(add_validation "" "m" "" ⟨[], [], [], []⟩).1 (Or.inl rfl),
   (add_validation "cat" "feline" "" ⟨[], [], [], []⟩).2
     (by decide) (by decide)⟩

/-! ## Claim theorems: delete (C6) -/

/-- C6: deleting a present word removes it from the repository and removes
every occurrence of it from the learned list; both results are persisted;
and the "learned words reference present words" invariant is preserved. -/
theorem cascade_delete (st : AppState) (w : String)
    (hw : dictHasKey w st.words = true) :
    ¬ w ∈ (deleteHandler w true st).learned
    ∧ (deleteHandler w true st).learned.count w = 0
    ∧ (deleteHandler w true st).wordsStore = (deleteHandler w true st).words
    ∧ (deleteHandler w true st).learnedStore = (deleteHandler w true st).learned
    ∧ ((∀ x ∈ st.learned, dictHasKey x st.words = true) →
        ∀ x ∈ (deleteHandler w true st).learned,
          dictHasKey x (deleteHandler w true st).words = true) := by
  have hstep : deleteHandler w true st =
      { st with words := dictRemove w st.words,
                learned := st.learned.filter (fun x => x ≠ w),
                wordsStore := dictRemove w st.words,
                learnedStore := st.learned.filter (fun x => x ≠ w) } := by
    simp [deleteHandler, hw]
  rw [hstep]
  refine ⟨?_, ?_, rfl, rfl, ?_⟩
  · intro hmem
    have := List.of_mem_filter hmem
    simp at this
  · rw [List.count_eq_zero]
    intro hmem
    have := List.of_mem_filter hmem
    simp at this
  · intro hinv x hx
    have hx1 : x ∈ st.learned := List.mem_of_mem_filter hx
    have hx2 : x ≠ w := by
      have := List.of_mem_filter hx
      simpa using this
    show dictHasKey x (dictRemove w st.words) = true
    unfold dictHasKey
    rw [dictGet_dictRemove x w st.words hx2]
    exact hinv x hx1

theorem cascade_delete_witness :
    dictHasKey "cat"
        [("cat", Entry.mk "feline" ""), ("dog", Entry.mk "d" "")] = true
    ∧ (¬ "cat" ∈ (deleteHandler "cat" true stD).learned
      ∧ (deleteHandler "cat" true stD).learned.count "cat" = 0
      ∧ (deleteHandler "cat" true stD).wordsStore
          = (deleteHandler "cat" true stD).words
      ∧ (deleteHandler "cat" true stD).learnedStore
          = (deleteHandler "cat" true stD).learned
      ∧ ((∀ x ∈ stD.learned, dictHasKey x stD.words = true) →
          ∀ x ∈ (deleteHandler "cat" true stD).learned,
            dictHasKey x (deleteHandler "cat" true stD).words = true)) :=
  ⟨by decide, cascade_delete stD "cat" (by decide)⟩

/-! ## Claim theorems: mark-learned (C3) -/

theorem learnedBtn_learned (st : AppState) :
    (learnedBtn st).learned = st.learned
    ∨ ∃ c, ¬ c ∈ st.learned ∧ (learnedBtn st).learned = st.learned ++ [c] := by
  unfold learnedBtn
  cases hq : learnedQueue st.words st.learned with
  | nil => exact Or.inl rfl
  | cons c rest =>
      right
      refine ⟨c, ?_, rfl⟩
      have hc : c ∈ learnedQueue st.words st.learned := by
        rw [hq]; exact List.mem_cons_self c rest
      have := List.of_mem_filter hc
      simpa using this

theorem learnedBtn_nodup (st : AppState) (h : st.learned.Nodup) :
    (learnedBtn st).learned.Nodup := by
  rcases learnedBtn_learned st with h1 | ⟨c, hc, h1⟩ <;> rw [h1]
  · exact h
  · simp [List.nodup_append, h, hc]

theorem learnedBtn_mem (st : AppState) (w : String) (h : w ∈ st.learned) :
    w ∈ (learnedBtn st).learned := by
  rcases learnedBtn_learned st with h1 | ⟨c, hc, h1⟩ <;> rw [h1]
  · exact h
  · exact List.mem_append_left _ h

/-- C3: from any duplicate-free learned list, two presses of the learned
button leave any word at most once in the list (exactly once when the first
press marked it), and a word already present keeps its position — the
appended word is always drawn from the queue, which excludes learned
words. -/
theorem mark_learned_no_duplicate (st : AppState) (w : String)
    (h : st.learned.Nodup) :
    (learnedBtn (learnedBtn st)).learned.count w ≤ 1
    ∧ (w ∈ (learnedBtn st).learned →
        (learnedBtn (learnedBtn st)).learned.count w = 1)
    ∧ (∀ i, i < st.learned.length →
        (learnedBtn st).learned[i]? = st.learned[i]?) := by
  have h1 := learnedBtn_nodup st h
  have h2 := learnedBtn_nodup _ h1
  refine ⟨List.nodup_iff_count_le_one.mp h2 w, ?_, ?_⟩
  · intro hw
    have hw2 := learnedBtn_mem _ w hw
    have hle := List.nodup_iff_count_le_one.mp h2 w
    have hge : 0 < (learnedBtn (learnedBtn st)).learned.count w :=
      List.count_pos_iff.mpr hw2
    omega
  · intro i hi
    rcases learnedBtn_learned st with heq | ⟨c, hc, heq⟩ <;> rw [heq]
    exact List.getElem?_append_left hi

theorem mark_learned_witness :
    stD.learned.Nodup
    ∧ ((learnedBtn (learnedBtn stD)).learned.count "cat" ≤ 1
      ∧ ("cat" ∈ (learnedBtn stD).learned →
          (learnedBtn (learnedBtn stD)).learned.count "cat" = 1)
      ∧ (∀ i, i < stD.learned.length →
          (learnedBtn stD).learned[i]? = stD.learned[i]?)) :=
  ⟨by decide, mark_learned_no_duplicate stD "cat" (by decide)⟩

/-! ## Claim theorems: mark-unlearned (C7) -/

/-- C7 counterexample: `list.remove` on an absent word raises `ValueError`
— calling the relearn handler with a word not in the learned list is an
error, not a no-op. -/
theorem unlearn_absent_errors :
    relearnBtn "b" ⟨[("a", ⟨"m", ""⟩)], ["a"], [("a", ⟨"m", ""⟩)], ["a"]⟩
      = Except.error () := rfl

theorem listRemoveFirst_spec (w : String) :
    ∀ l : List String, w ∈ l → ∃ l', listRemoveFirst w l = some l'
      ∧ l'.count w = l.count w - 1
      ∧ ∀ x, x ≠ w → l'.count x = l.count x := by
  intro l
  induction l with
  | nil => intro h; cases h
  | cons y ys ih =>
      intro h
      by_cases hy : y = w
      · subst hy
        refine ⟨ys, by simp [listRemoveFirst], ?_, ?_⟩
        · simp [List.count_cons]
        · intro x hx
          have hyx : ¬ y = x := fun hh => hx hh.symm
          simp [List.count_cons, hyx]
      · have h' : w ∈ ys := by
          rcases List.mem_cons.mp h with h1 | h1
          · exact absurd h1.symm hy
          · exact h1
        obtain ⟨l', hl1, hl2, hl3⟩ := ih h'
        refine ⟨y :: l', by simp [listRemoveFirst, hy, hl1], ?_, ?_⟩
        · have hwy : ¬ w = y := fun hh => hy hh.symm
          simp [List.count_cons, hwy, hl2]
        · intro x hx
          simp [List.count_cons, hl3 x hx]

/-- C7 (amended): for a word present in the learned list, the relearn
handler removes its first occurrence and persists the result; for an
absent word the underlying `list.remove` raises `ValueError` rather than
no-op — though the UI only offers words drawn from the learned list, so
that case is unreachable through the app. -/
theorem unlearn_removes (st : AppState) (w : String) (h : w ∈ st.learned) :
    ∃ l, listRemoveFirst w st.learned = some l
      ∧ relearnBtn w st =
          Except.ok { st with learned := l, learnedStore := l }
      ∧ l.count w = st.learned.count w - 1
      ∧ ∀ x, x ≠ w → l.count x = st.learned.count x := by
  obtain ⟨l, h1, h2, h3⟩ := listRemoveFirst_spec w st.learned h
  exact ⟨l, h1, by simp [relearnBtn, h1], h2, h3⟩

theorem unlearn_removes_witness :
    "cat" ∈ stD.learned
    ∧ ∃ l, listRemoveFirst "cat" stD.learned = some l
        ∧ relearnBtn "cat" stD =
            Except.ok { stD with learned := l, learnedStore := l }
        ∧ l.count "cat" = stD.learned.count "cat" - 1
        ∧ ∀ x, x ≠ "cat" → l.count x = stD.learned.count x :=
  ⟨by decide, unlearn_removes stD "cat" (by decide)⟩


